import Mathlib

/-!
# Verification of the `sleep-utils` duration parser

Shallow embedding of the Rust crate `sleep-utils` (files
`src/duration_parser.rs`, `src/error.rs`, `src/smart_sleep.rs`), together
with theorems settling the frozen claims about its specification.

Modelling conventions, stated once here:

* Strings are `List Char`; the crate's `&str` values are Unicode scalar
  sequences, exactly what `List Char` is.  `String`-level entry points wrap
  the `List Char` versions via `String.data`.
* `Duration` values: every duration the crate builds comes from
  `Duration::from_millis`, so a duration is modelled as its `Nat`
  millisecond count (`Duration::ZERO` is `0`).
* Machine integers are `Nat`/`Int` with explicit bounds: `isize` is the
  64-bit signed range, `u64` arithmetic that can wrap is reduced modulo
  `2 ^ 64` exactly where the Rust `u64` operations sit.
* The regex-crate character class `\d` is Unicode `Nd`; every non-ASCII
  decimal digit makes the subsequent `str::parse` call fail on each path of
  the source, so the model restricts `\d` to the ASCII digits, which is
  observationally equivalent for the parser's results.
* `str::trim` and the regex class `\s` both use the Unicode `White_Space`
  set, modelled in full by `isWsChar`.
* `str::to_lowercase` is modelled as ASCII lowercasing; non-ASCII letters
  (whose Unicode lowercasings differ) can never form a recognized unit
  spelling before or after lowercasing, so the parser's observable results
  agree.
* The two `f64` multiplications of the source (`value as f64 * multiplier`
  on the integer path, `value * multiplier` on the fractional path) are
  modelled by exact integer/decimal arithmetic followed by the saturating
  `as u64` cast.  The `f64` computation is exact whenever all intermediate
  values are below `2 ^ 53`, which covers every magnitude appearing in the
  claims; this is the one place the embedding idealises the source.
-/

/-! ## Character classes -/

/-- The regex class `\d`, restricted to ASCII digits (see header note). -/
def isDigitChar (c : Char) : Bool :=
  decide (48 ≤ c.toNat ∧ c.toNat ≤ 57)

/-- The Unicode `White_Space` set: `str::trim`'s notion of whitespace and
the regex class `\s`. -/
def isWsChar (c : Char) : Bool :=
  decide ((9 ≤ c.toNat ∧ c.toNat ≤ 13) ∨ c.toNat = 32 ∨ c.toNat = 133 ∨
    c.toNat = 160 ∨ c.toNat = 5760 ∨ (8192 ≤ c.toNat ∧ c.toNat ≤ 8202) ∨
    c.toNat = 8232 ∨ c.toNat = 8233 ∨ c.toNat = 8239 ∨ c.toNat = 8287 ∨
    c.toNat = 12288)

/-- The class `[a-z]` under the `(?i)` flag of `MULTI_UNIT_PATTERN`:
ASCII letters of either case. -/
def isRegexLetter (c : Char) : Bool :=
  decide ((97 ≤ c.toNat ∧ c.toNat ≤ 122) ∨ (65 ≤ c.toNat ∧ c.toNat ≤ 90))

/-- ASCII lowercasing, modelling `str::to_lowercase` (see header note). -/
def asciiLower (c : Char) : Char :=
  if 65 ≤ c.toNat ∧ c.toNat ≤ 90 then Char.ofNat (c.toNat + 32) else c

/-! ## Numeric string conversions -/

/-- Value of a list of ASCII digit characters, most significant first. -/
def natOfDigits (l : List Char) : Nat :=
  l.foldl (fun a c => a * 10 + (c.toNat - 48)) 0

/-- The value `isize::MAX` on a 64-bit platform. -/
def isizeMax : Int := 2 ^ 63 - 1

/-- The value `isize::MIN` on a 64-bit platform. -/
def isizeMin : Int := -(2 ^ 63)

/-- The value `u64::MAX`. -/
def u64Max : Nat := 2 ^ 64 - 1

/-- The `u64` modulus. -/
def u64Size : Nat := 2 ^ 64

/-- Model of `str::parse::<isize>()`: an optional sign followed by one or more ASCII
digits, the whole string consumed, value within the 64-bit signed range. -/
def parseIsize (l : List Char) : Option Int :=
  match l with
  | [] => none
  | c :: rest =>
    let neg : Bool := c = '-'
    let ds : List Char := if c = '-' ∨ c = '+' then rest else l
    if ds = [] then none
    else if ds.all isDigitChar then
      let v : Int := if neg then -(natOfDigits ds : Int) else (natOfDigits ds : Int)
      if isizeMin ≤ v ∧ v ≤ isizeMax then some v else none
    else none

/-- Model of `str::parse::<u64>()` on a capture of `(\d+)`: the digits' value when it
fits in `u64`, otherwise a parse failure. -/
def parseU64Digits (l : List Char) : Option Nat :=
  if natOfDigits l ≤ u64Max then some (natOfDigits l) else none

/-- Model of `str::parse::<isize>()` on a capture of `(\d+)` (digits only, no sign):
the value when it fits in `isize`. -/
def parseIsizeDigits (l : List Char) : Option Nat :=
  if (natOfDigits l : Int) ≤ isizeMax then some (natOfDigits l) else none

/-! ## Normalization: `input.trim().to_lowercase()` -/

/-- Model of `str::trim`: remove leading and trailing `White_Space` characters. -/
def trimChars (l : List Char) : List Char :=
  ((l.dropWhile isWsChar).reverse.dropWhile isWsChar).reverse

/-- The normalization performed by `parse_sleep_duration`:
`input.trim().to_lowercase()`. -/
def normalizeChars (l : List Char) : List Char :=
  (trimChars l).map asciiLower

/-! ## The error type (`src/error.rs`)

`SleepError` has three variants.  The parser's `InvalidDuration` error
embeds the post-normalization input in the fixed diagnostic template
`"Invalid sleep duration format: '…'"`; the model carries the
post-normalization string itself, the only varying content. -/

/-- The crate's error enum `SleepError`. -/
inductive SleepError where
  | InvalidDuration : String → SleepError
  | ParseError : String → SleepError
  | NumberOutOfRange : String → SleepError
deriving DecidableEq

/-! ## Single-unit patterns (`SINGLE_PATTERNS` and `FLOAT_PATTERNS`)

Each pattern of the source is an anchored regex
`^(\d+)\s*(alt1|alt2|…)$` (or without the `\s*`) paired with a
multiplier.  Because the digit, whitespace, and letter classes are
pairwise disjoint and the unit alternatives contain only letters, such a
regex matches the input exactly when the input splits as
`digits ++ whitespace ++ spelling`, and the digit capture is the maximal
leading digit run.  A pattern is therefore modelled as
(whitespace allowed between value and unit, unit spellings, multiplier). -/

/-- Spellings of `(ms|millis?|milliseconds?)`. -/
def msSpellings : List (List Char) :=
  ["ms".data, "milli".data, "millis".data, "millisecond".data, "milliseconds".data]

/-- Spellings of `(s|sec|seconds?)`. -/
def sSpellings : List (List Char) :=
  ["s".data, "sec".data, "second".data, "seconds".data]

/-- Spellings of `(m|min|minutes?)`. -/
def mSpellings : List (List Char) :=
  ["m".data, "min".data, "minute".data, "minutes".data]

/-- Spellings of `(h|hr|hours?)`. -/
def hSpellings : List (List Char) :=
  ["h".data, "hr".data, "hour".data, "hours".data]

/-- The eight entries of `SINGLE_PATTERNS`, in source order. -/
def SINGLE_PATTERNS : List (Bool × List (List Char) × Nat) :=
  [ (true, msSpellings, 1),
    (true, sSpellings, 1000),
    (true, mSpellings, 60000),
    (true, hSpellings, 3600000),
    (false, ["ms".data], 1),
    (false, ["s".data], 1000),
    (false, ["m".data], 60000),
    (false, ["h".data], 3600000) ]

/-- The four entries of `FLOAT_PATTERNS`, in source order. -/
def FLOAT_PATTERNS : List (Bool × List (List Char) × Nat) :=
  [ (true, sSpellings, 1000),
    (true, mSpellings, 60000),
    (false, ["s".data], 1000),
    (false, ["m".data], 60000) ]

/-- Match one `SINGLE_PATTERNS` regex against the whole input, returning
the `(\d+)` capture. -/
def matchIntUnit (allowWs : Bool) (spellings : List (List Char))
    (input : List Char) : Option (List Char) :=
  let d := input.takeWhile isDigitChar
  let rest := input.dropWhile isDigitChar
  let u := if allowWs then rest.dropWhile isWsChar else rest
  if d ≠ [] ∧ u ∈ spellings then some d else none

/-- A character the magnitude `(\d*\.?\d+)` can contain. -/
def isFloatChar (c : Char) : Bool :=
  isDigitChar c || c = '.'

/-- Whether a character run is matched by `\d*\.?\d+` in full: nonempty,
digits and at most one dot, ending in a digit. -/
def isFloatLit (m : List Char) : Bool :=
  !m.isEmpty && m.all isFloatChar && decide (m.count '.' ≤ 1) &&
    (match m.getLast? with
     | some c => isDigitChar c
     | none => false)

/-- Match one `FLOAT_PATTERNS` regex against the whole input, returning the
`(\d*\.?\d+)` capture. -/
def matchFloatUnit (allowWs : Bool) (spellings : List (List Char))
    (input : List Char) : Option (List Char) :=
  let m := input.takeWhile isFloatChar
  let rest := input.dropWhile isFloatChar
  let u := if allowWs then rest.dropWhile isWsChar else rest
  if isFloatLit m ∧ u ∈ spellings then some m else none

/-- Number of digits after the decimal point of a float literal. -/
def fracLen (m : List Char) : Nat :=
  match m.dropWhile (fun c => !(c = '.' : Bool)) with
  | [] => 0
  | _ :: t => t.length

/-- Model of `(value as f64 * multiplier) as u64` on the integer single-unit path:
exact product with the saturating float-to-`u64` cast (see header note on
`f64` exactness). -/
def intMillis (v mult : Nat) : Nat :=
  min (v * mult) u64Max

/-- Model of `(value * multiplier) as u64` on the fractional path: the literal's
exact decimal value times the multiplier, truncated toward zero, with the
saturating float-to-`u64` cast (see header note on `f64` exactness). -/
def floatMillis (m : List Char) (mult : Nat) : Nat :=
  let digits := m.filter (fun c => !(c = '.' : Bool))
  let n := natOfDigits digits
  if n = 0 then 0 else min (n * mult / 10 ^ fracLen m) u64Max

/-- The first loop of `parse_duration_with_unit`: try each entry of
`SINGLE_PATTERNS` in order; on a regex match whose digits parse as
`isize`, return the duration (zero value gives `Duration::ZERO`); a match
whose digits overflow `isize` falls through to the next pattern. -/
def trySingles : List (Bool × List (List Char) × Nat) → List Char → Option Nat
  | [], _ => none
  | (aw, sp, mult) :: ps, input =>
    match matchIntUnit aw sp input with
    | some d =>
      match parseIsizeDigits d with
      | some v => some (if v = 0 then 0 else intMillis v mult)
      | none => trySingles ps input
    | none => trySingles ps input

/-- The second loop of `parse_duration_with_unit`: try each entry of
`FLOAT_PATTERNS` in order; `f64` parsing of a `\d*\.?\d+` capture always
succeeds, and a value of zero gives `Duration::ZERO`. -/
def tryFloats : List (Bool × List (List Char) × Nat) → List Char → Option Nat
  | [], _ => none
  | (aw, sp, mult) :: ps, input =>
    match matchFloatUnit aw sp input with
    | some m => some (floatMillis m mult)
    | none => tryFloats ps input

/-! ## The multi-unit scan (`parse_multiple_units`)

`MULTI_UNIT_PATTERN` is the unanchored regex `(?i)(\d+)\s*([a-z]+)` and
the source iterates over its non-overlapping leftmost matches.  A match
starts at a digit, captures the maximal digit run, skips whitespace, and
requires at least one ASCII letter, capturing the maximal letter run;
iteration resumes after the letters.  `scanAux` performs exactly this scan;
the fuel argument (consumed one unit per examined character, while every
step discards at least one character) makes the recursion structural, and
`scanRuns` supplies the always-sufficient fuel. -/

/-- One left-to-right pass of `MULTI_UNIT_PATTERN.captures_iter`,
structured on fuel: the list of `(digits capture, letters capture)` pairs
of the successive non-overlapping leftmost matches. -/
def scanAux : Nat → List Char → List (List Char × List Char)
  | 0, _ => []
  | _ + 1, [] => []
  | fuel + 1, c :: rest =>
    if isDigitChar c then
      if ((rest.dropWhile isDigitChar).dropWhile isWsChar).takeWhile isRegexLetter = [] then
        scanAux fuel rest
      else
        (c :: rest.takeWhile isDigitChar,
          ((rest.dropWhile isDigitChar).dropWhile isWsChar).takeWhile isRegexLetter) ::
          scanAux fuel (((rest.dropWhile isDigitChar).dropWhile isWsChar).dropWhile isRegexLetter)
    else scanAux fuel rest

/-- The matches of `MULTI_UNIT_PATTERN.captures_iter` on `input`. -/
def scanRuns (input : List Char) : List (List Char × List Char) :=
  scanAux input.length input

/-- The `match` on unit spellings inside the `captures_iter` loop, applied
to the lowercased letters capture. -/
def unitMult (u : List Char) : Option Nat :=
  if u ∈ msSpellings then some 1
  else if u ∈ sSpellings then some 1000
  else if u ∈ mSpellings then some 60000
  else if u ∈ hSpellings then some 3600000
  else none

/-- One iteration of the `captures_iter` loop over the state
`(total_millis, found_any, has_positive_value)`: a run whose digits
overflow `u64` or whose unit spelling is unknown is skipped (`continue`);
otherwise `total_millis += value * multiplier` in wrapping `u64`
arithmetic. -/
def processRun (st : Nat × Bool × Bool) (run : List Char × List Char) :
    Nat × Bool × Bool :=
  match parseU64Digits run.1 with
  | none => st
  | some v =>
    match unitMult (run.2.map asciiLower) with
    | none => st
    | some mult =>
      ((st.1 + v * mult % u64Size) % u64Size, true, st.2.2 || decide (0 < v))

/-- Model of `parse_multiple_units`: fold the loop body over the scanned runs; if
any run matched, the total (or `Duration::ZERO` when no matched value was
positive), else no match.  The source's `Result` wrapper never carries an
error here. -/
def parse_multiple_units (input : List Char) : Option Nat :=
  let st := (scanRuns input).foldl processRun (0, false, false)
  if st.2.1 then some (if st.2.2 then st.1 else 0) else none

/-! ## `parse_duration_with_unit` and `parse_sleep_duration` -/

/-- Model of `parse_duration_with_unit`: single-unit integer patterns first, then
fractional patterns, then the multi-unit scan.  The source's `Result`
wrapper never carries an error, so the model returns the `Option` alone. -/
def parse_duration_with_unit (input : List Char) : Option Nat :=
  match trySingles SINGLE_PATTERNS input with
  | some d => some d
  | none =>
    match tryFloats FLOAT_PATTERNS input with
    | some d => some d
    | none => parse_multiple_units input

/-- Model of `parse_sleep_duration` on the character list of the input string:
normalize; empty input is `Duration::ZERO`; a bare `isize` is clamped at
zero and read as milliseconds; otherwise the unit grammars; otherwise
`InvalidDuration` carrying the post-normalization input. -/
def parse_sleep_duration_chars (l : List Char) : Except SleepError Nat :=
  let input := normalizeChars l
  if input = [] then .ok 0
  else
    match parseIsize input with
    | some millis => if millis ≤ 0 then .ok 0 else .ok millis.toNat
    | none =>
      match parse_duration_with_unit input with
      | some duration => .ok duration
      | none => .error (.InvalidDuration (String.mk input))

/-- Model of `parse_sleep_duration` (the crate's public parser entry point). -/
def parse_sleep_duration (s : String) : Except SleepError Nat :=
  parse_sleep_duration_chars s.data

/-! ## `SleepInput` (`src/smart_sleep.rs`) -/

/-- The crate's `SleepInput` enum: a bare `isize` of milliseconds, free
text, or a duration value. -/
inductive SleepInput where
  | Number : Int → SleepInput
  | Text : String → SleepInput
  | Duration : Nat → SleepInput
deriving DecidableEq

/-- Model of `SleepInput::should_sleep`: positive numbers sleep; text sleeps unless
it parses cleanly as a non-positive `isize`; durations sleep unless
exactly zero. -/
def SleepInput.should_sleep : SleepInput → Bool
  | .Number n => decide (0 < n)
  | .Text t =>
    match parseIsize t.data with
    | some n => decide (0 < n)
    | none => true
  | .Duration d => !(d = 0 : Bool)

/-! ## Derived definitions used by the claim statements -/

/-- Lookup of a unit spelling through the four whitespace-tolerant entries
of `SINGLE_PATTERNS`, in their source order; the factor table of the
spec. -/
def singleLookup (u : List Char) : Option Nat :=
  if u ∈ msSpellings then some 1
  else if u ∈ sSpellings then some 1000
  else if u ∈ mSpellings then some 60000
  else if u ∈ hSpellings then some 3600000
  else none

/-- The seventeen `(spelling, factor)` entries of the unit factor table. -/
def spellingTable : List (List Char × Nat) :=
  [ ("ms".data, 1), ("milli".data, 1), ("millis".data, 1),
    ("millisecond".data, 1), ("milliseconds".data, 1),
    ("s".data, 1000), ("sec".data, 1000), ("second".data, 1000),
    ("seconds".data, 1000),
    ("m".data, 60000), ("min".data, 60000), ("minute".data, 60000),
    ("minutes".data, 60000),
    ("h".data, 3600000), ("hr".data, 3600000), ("hour".data, 3600000),
    ("hours".data, 3600000) ]

/-- One `<digits><unit>` run of a multi-unit input: digits, the whitespace
between digits and unit, the unit spelling, and the whitespace separating
the run from the next one. -/
structure URun where
  digits : List Char
  gap : List Char
  unit : List Char
  sep : List Char

/-- The characters of one run. -/
def runChars (b : URun) : List Char :=
  b.digits ++ (b.gap ++ (b.unit ++ b.sep))

/-- The input string denoted by a list of runs. -/
def mkInput : List URun → List Char
  | [] => []
  | b :: bs => runChars b ++ mkInput bs

/-- A run as the multi-unit grammar of the claim describes it: nonempty
digits, whitespace in the separator positions, and a nonempty lowercase
unit spelling recognized by the factor table of `parse_multiple_units`. -/
def WellFormedRun (b : URun) : Prop :=
  b.digits ≠ [] ∧ (∀ c ∈ b.digits, isDigitChar c = true) ∧
  (∀ c ∈ b.gap, isWsChar c = true) ∧
  b.unit ≠ [] ∧ (∀ c ∈ b.unit, 97 ≤ c.toNat ∧ c.toNat ≤ 122) ∧
  (unitMult b.unit).isSome ∧
  (∀ c ∈ b.sep, isWsChar c = true)

instance (b : URun) : Decidable (WellFormedRun b) := by
  unfold WellFormedRun
  infer_instance

/-- The contribution of one run: value times the unit's factor. -/
def blockValue (b : URun) : Nat :=
  natOfDigits b.digits * (unitMult b.unit).getD 0

/-- Whether a parse result is an error. -/
def isErr (r : Except SleepError Nat) : Bool :=
  match r with
  | .error _ => true
  | .ok _ => false

/-! ## Character class facts -/

theorem not_digit_of_ws {c : Char} (h : isWsChar c = true) :
    isDigitChar c = false := by
  simp only [isWsChar, decide_eq_true_eq] at h
  simp only [isDigitChar, decide_eq_false_iff_not]
  omega

theorem not_digit_of_alpha {c : Char} (h : 65 ≤ c.toNat ∧ c.toNat ≤ 122) :
    isDigitChar c = false := by
  simp only [isDigitChar, decide_eq_false_iff_not]
  omega

theorem not_ws_of_alpha {c : Char} (h : 65 ≤ c.toNat ∧ c.toNat ≤ 122) :
    isWsChar c = false := by
  simp only [isWsChar, decide_eq_false_iff_not]
  omega

theorem not_ws_of_digit {c : Char} (h : isDigitChar c = true) :
    isWsChar c = false := by
  simp only [isDigitChar, decide_eq_true_eq] at h
  simp only [isWsChar, decide_eq_false_iff_not]
  omega

theorem not_letter_of_ws {c : Char} (h : isWsChar c = true) :
    isRegexLetter c = false := by
  simp only [isWsChar, decide_eq_true_eq] at h
  simp only [isRegexLetter, decide_eq_false_iff_not]
  omega

theorem not_letter_of_digit {c : Char} (h : isDigitChar c = true) :
    isRegexLetter c = false := by
  simp only [isDigitChar, decide_eq_true_eq] at h
  simp only [isRegexLetter, decide_eq_false_iff_not]
  omega

theorem letter_of_lower {c : Char} (h : 97 ≤ c.toNat ∧ c.toNat ≤ 122) :
    isRegexLetter c = true := by
  simp only [isRegexLetter, decide_eq_true_eq]
  omega

theorem asciiLower_fixed {c : Char} (h : ¬(65 ≤ c.toNat ∧ c.toNat ≤ 90)) :
    asciiLower c = c := by
  simp only [asciiLower, if_neg h]

theorem asciiLower_fixed_of_ws {c : Char} (h : isWsChar c = true) :
    asciiLower c = c := by
  refine asciiLower_fixed ?_
  simp only [isWsChar, decide_eq_true_eq] at h
  omega

theorem asciiLower_fixed_of_digit {c : Char} (h : isDigitChar c = true) :
    asciiLower c = c := by
  refine asciiLower_fixed ?_
  simp only [isDigitChar, decide_eq_true_eq] at h
  omega

theorem asciiLower_fixed_of_lower {c : Char} (h : 97 ≤ c.toNat ∧ c.toNat ≤ 122) :
    asciiLower c = c := by
  refine asciiLower_fixed ?_
  omega

/-! ## takeWhile / dropWhile facts -/

theorem takeWhile_append_of_all {p : Char → Bool} {l1 l2 : List Char}
    (h : ∀ c ∈ l1, p c = true) :
    (l1 ++ l2).takeWhile p = l1 ++ l2.takeWhile p := by
  induction l1 with
  | nil => simp
  | cons c t ih =>
    rw [List.cons_append, List.takeWhile_cons_of_pos (h c (by simp)),
      ih (fun x hx => h x (by simp [hx])), List.cons_append]

theorem dropWhile_append_of_all {p : Char → Bool} {l1 l2 : List Char}
    (h : ∀ c ∈ l1, p c = true) :
    (l1 ++ l2).dropWhile p = l2.dropWhile p := by
  induction l1 with
  | nil => simp
  | cons c t ih =>
    rw [List.cons_append, List.dropWhile_cons_of_pos (h c (by simp)),
      ih (fun x hx => h x (by simp [hx]))]

theorem takeWhile_eq_nil_of_head {p : Char → Bool} {l : List Char}
    (h : ∀ c, l.head? = some c → p c = false) :
    l.takeWhile p = [] := by
  cases l with
  | nil => rfl
  | cons c t => exact List.takeWhile_cons_of_neg (by simp [h c rfl])

theorem dropWhile_eq_self_of_head {p : Char → Bool} {l : List Char}
    (h : ∀ c, l.head? = some c → p c = false) :
    l.dropWhile p = l := by
  cases l with
  | nil => rfl
  | cons c t => exact List.dropWhile_cons_of_neg (by simp [h c rfl])

theorem dropWhile_eq_nil_of_all {p : Char → Bool} {l : List Char}
    (h : ∀ c ∈ l, p c = true) :
    l.dropWhile p = [] := by
  induction l with
  | nil => rfl
  | cons c t ih =>
    rw [List.dropWhile_cons_of_pos (h c (by simp)),
      ih (fun x hx => h x (by simp [hx]))]

theorem map_eq_self_of_fixed {f : Char → Char} {l : List Char}
    (h : ∀ c ∈ l, f c = c) : l.map f = l := by
  induction l with
  | nil => rfl
  | cons c t ih =>
    rw [List.map_cons, h c (by simp), ih (fun x hx => h x (by simp [hx]))]

/-! ## Normalization facts -/

theorem trimChars_eq_self {l : List Char}
    (h1 : ∀ c, l.head? = some c → isWsChar c = false)
    (h2 : ∀ c, l.getLast? = some c → isWsChar c = false) :
    trimChars l = l := by
  unfold trimChars
  rw [dropWhile_eq_self_of_head h1]
  cases hrev : l.reverse with
  | nil =>
    have : l = [] := by simpa using congrArg List.reverse hrev
    simp [this]
  | cons c t =>
    have hc : l.getLast? = some c := by
      rw [← List.head?_reverse, hrev, List.head?_cons]
    have h3 : List.dropWhile isWsChar (c :: t) = c :: t :=
      List.dropWhile_cons_of_neg (by simp [h2 c hc])
    rw [h3, ← hrev, List.reverse_reverse]

theorem trimChars_eq_nil_of_all {l : List Char}
    (h : ∀ c ∈ l, isWsChar c = true) :
    trimChars l = [] := by
  unfold trimChars
  rw [dropWhile_eq_nil_of_all h]
  rfl

theorem normalizeChars_eq_nil_of_all {l : List Char}
    (h : ∀ c ∈ l, isWsChar c = true) :
    normalizeChars l = [] := by
  unfold normalizeChars
  rw [trimChars_eq_nil_of_all h]
  rfl

theorem normalizeChars_of_ends {l : List Char}
    (h1 : ∀ c, l.head? = some c → isWsChar c = false)
    (h2 : ∀ c, l.getLast? = some c → isWsChar c = false) :
    normalizeChars l = l.map asciiLower := by
  unfold normalizeChars
  rw [trimChars_eq_self h1 h2]

/-! ## Scan equations -/

theorem length_dropWhile_le (p : Char → Bool) (l : List Char) :
    (l.dropWhile p).length ≤ l.length :=
  (List.dropWhile_suffix p).sublist.length_le

theorem scanAux_congr : ∀ (f1 f2 : Nat) (l : List Char),
    l.length ≤ f1 → l.length ≤ f2 → scanAux f1 l = scanAux f2 l := by
  intro f1
  induction f1 with
  | zero =>
    intro f2 l h1 _
    have : l = [] := List.length_eq_zero.mp (Nat.le_zero.mp h1)
    subst this
    cases f2 <;> rfl
  | succ f ih =>
    intro f2 l h1 h2
    cases l with
    | nil => cases f2 <;> rfl
    | cons c rest =>
      cases f2 with
      | zero => simp at h2
      | succ f2' =>
        rw [List.length_cons, Nat.succ_le_succ_iff] at h1 h2
        show scanAux (f + 1) (c :: rest) = scanAux (f2' + 1) (c :: rest)
        simp only [scanAux]
        split
        · split
          · exact ih f2' rest h1 h2
          · have h3 : (((rest.dropWhile isDigitChar).dropWhile isWsChar).dropWhile
                isRegexLetter).length ≤ rest.length :=
              le_trans (length_dropWhile_le _ _)
                (le_trans (length_dropWhile_le _ _) (length_dropWhile_le _ _))
            rw [ih f2' _ (le_trans h3 h1) (le_trans h3 h2)]
        · exact ih f2' rest h1 h2

theorem scanRuns_cons_of_not_digit {c : Char} {l : List Char}
    (h : isDigitChar c = false) : scanRuns (c :: l) = scanRuns l := by
  unfold scanRuns
  rw [List.length_cons]
  simp only [scanAux]
  rw [if_neg (by simp [h])]

theorem scanRuns_cons_digit_nomatch {c : Char} {l : List Char}
    (hc : isDigitChar c = true)
    (hu : ((l.dropWhile isDigitChar).dropWhile isWsChar).takeWhile isRegexLetter = []) :
    scanRuns (c :: l) = scanRuns l := by
  unfold scanRuns
  rw [List.length_cons]
  simp only [scanAux]
  rw [if_pos hc, if_pos hu]

theorem scanRuns_cons_digit_match {c : Char} {l : List Char}
    (hc : isDigitChar c = true)
    (hu : ((l.dropWhile isDigitChar).dropWhile isWsChar).takeWhile isRegexLetter ≠ []) :
    scanRuns (c :: l) =
      (c :: l.takeWhile isDigitChar,
        ((l.dropWhile isDigitChar).dropWhile isWsChar).takeWhile isRegexLetter) ::
        scanRuns (((l.dropWhile isDigitChar).dropWhile isWsChar).dropWhile isRegexLetter) := by
  unfold scanRuns
  rw [List.length_cons]
  simp only [scanAux]
  rw [if_pos hc, if_neg hu]
  have h3 : (((l.dropWhile isDigitChar).dropWhile isWsChar).dropWhile
      isRegexLetter).length ≤ l.length :=
    le_trans (length_dropWhile_le _ _)
      (le_trans (length_dropWhile_le _ _) (length_dropWhile_le _ _))
  rw [scanAux_congr l.length _ _ h3 le_rfl]

theorem scanRuns_append_of_nondigit {t l : List Char}
    (h : ∀ c ∈ t, isDigitChar c = false) :
    scanRuns (t ++ l) = scanRuns l := by
  induction t with
  | nil => rfl
  | cons c t' ih =>
    rw [List.cons_append, scanRuns_cons_of_not_digit (h c (by simp)),
      ih (fun x hx => h x (by simp [hx]))]

/-! ## Heads of composite multi-unit inputs -/

theorem head_not_digit_of_gap_unit {gap unit rest : List Char}
    (hg : ∀ c ∈ gap, isWsChar c = true) (hu1 : unit ≠ [])
    (hu2 : ∀ c ∈ unit, 97 ≤ c.toNat ∧ c.toNat ≤ 122) :
    ∀ x, (gap ++ (unit ++ rest)).head? = some x → isDigitChar x = false := by
  cases gap with
  | nil =>
    cases unit with
    | nil => exact absurd rfl hu1
    | cons u ut =>
      intro x hx
      simp only [List.nil_append, List.cons_append, List.head?_cons,
        Option.some.injEq] at hx
      subst hx
      have h97 := hu2 u (by simp)
      exact not_digit_of_alpha ⟨by omega, h97.2⟩
  | cons g gt =>
    intro x hx
    simp only [List.cons_append, List.head?_cons, Option.some.injEq] at hx
    subst hx
    exact not_digit_of_ws (hg g (by simp))

theorem head_not_ws_of_unit {unit rest : List Char} (hu1 : unit ≠ [])
    (hu2 : ∀ c ∈ unit, 97 ≤ c.toNat ∧ c.toNat ≤ 122) :
    ∀ x, (unit ++ rest).head? = some x → isWsChar x = false := by
  cases unit with
  | nil => exact absurd rfl hu1
  | cons u ut =>
    intro x hx
    simp only [List.cons_append, List.head?_cons, Option.some.injEq] at hx
    subst hx
    have h97 := hu2 u (by simp)
    exact not_ws_of_alpha ⟨by omega, h97.2⟩

theorem head_not_letter_of_sep_mk {sep : List Char} {bs : List URun}
    (hs : ∀ c ∈ sep, isWsChar c = true)
    (hbs : ∀ b ∈ bs, WellFormedRun b) :
    ∀ x, (sep ++ mkInput bs).head? = some x → isRegexLetter x = false := by
  cases sep with
  | cons g gt =>
    intro x hx
    simp only [List.cons_append, List.head?_cons, Option.some.injEq] at hx
    subst hx
    exact not_letter_of_ws (hs g (by simp))
  | nil =>
    cases bs with
    | nil => intro x hx; simp [mkInput] at hx
    | cons b bs' =>
      intro x hx
      have wf := hbs b (by simp)
      cases hd : b.digits with
      | nil => exact absurd hd wf.1
      | cons d0 dt =>
        simp only [List.nil_append, mkInput, runChars, hd, List.cons_append,
          List.head?_cons, Option.some.injEq] at hx
        subst hx
        exact not_letter_of_digit (wf.2.1 d0 (by simp [hd]))

/-! ## The scan on a well-formed multi-unit input -/

theorem scanRuns_mkInput : ∀ bs : List URun, (∀ b ∈ bs, WellFormedRun b) →
    scanRuns (mkInput bs) = bs.map (fun b => (b.digits, b.unit)) := by
  intro bs
  induction bs with
  | nil => intro _; rfl
  | cons b bs ih =>
    intro h
    obtain ⟨hd, hdall, hg, hu1, hu2, _, hsep⟩ := h b (by simp)
    have hbs' : ∀ b' ∈ bs, WellFormedRun b' := fun b' hb' => h b' (by simp [hb'])
    cases hdig : b.digits with
    | nil => exact absurd hdig hd
    | cons d0 dt =>
      have hshape : mkInput (b :: bs) =
          d0 :: (dt ++ (b.gap ++ (b.unit ++ (b.sep ++ mkInput bs)))) := by
        simp [mkInput, runChars, hdig, List.append_assoc]
      rw [hshape]
      set L := dt ++ (b.gap ++ (b.unit ++ (b.sep ++ mkInput bs))) with hL
      have hdt : ∀ c ∈ dt, isDigitChar c = true :=
        fun c hc => hdall c (by simp [hdig, hc])
      have htw : L.takeWhile isDigitChar = dt := by
        rw [hL, takeWhile_append_of_all hdt,
          takeWhile_eq_nil_of_head (head_not_digit_of_gap_unit hg hu1 hu2),
          List.append_nil]
      have hdw : L.dropWhile isDigitChar =
          b.gap ++ (b.unit ++ (b.sep ++ mkInput bs)) := by
        rw [hL, dropWhile_append_of_all hdt,
          dropWhile_eq_self_of_head (head_not_digit_of_gap_unit hg hu1 hu2)]
      have hdw2 : (L.dropWhile isDigitChar).dropWhile isWsChar =
          b.unit ++ (b.sep ++ mkInput bs) := by
        rw [hdw, dropWhile_append_of_all hg,
          dropWhile_eq_self_of_head (head_not_ws_of_unit hu1 hu2)]
      have hulet : ∀ c ∈ b.unit, isRegexLetter c = true :=
        fun c hc => letter_of_lower (hu2 c hc)
      have htw2 : ((L.dropWhile isDigitChar).dropWhile isWsChar).takeWhile
          isRegexLetter = b.unit := by
        rw [hdw2, takeWhile_append_of_all hulet,
          takeWhile_eq_nil_of_head (head_not_letter_of_sep_mk hsep hbs'),
          List.append_nil]
      have hdw3 : ((L.dropWhile isDigitChar).dropWhile isWsChar).dropWhile
          isRegexLetter = b.sep ++ mkInput bs := by
        rw [hdw2, dropWhile_append_of_all hulet,
          dropWhile_eq_self_of_head (head_not_letter_of_sep_mk hsep hbs')]
      have hd0 : isDigitChar d0 = true := hdall d0 (by simp [hdig])
      rw [scanRuns_cons_digit_match hd0 (by rw [htw2]; exact hu1), htw2, htw, hdw3,
        scanRuns_append_of_nondigit (fun c hc => not_digit_of_ws (hsep c hc)),
        ih hbs']
      simp [hdig]

/-! ## The accumulation loop on well-formed runs -/

theorem unitMult_pos {u : List Char} {m : Nat} (h : unitMult u = some m) :
    1 ≤ m := by
  unfold unitMult at h
  split_ifs at h
  all_goals injection h with h
  all_goals omega

theorem foldl_processRun_runs : ∀ bs : List URun, (∀ b ∈ bs, WellFormedRun b) →
    ∀ (tot : Nat) (fa hp : Bool), tot + (bs.map blockValue).sum < u64Size →
    (bs.map (fun b => (b.digits, b.unit))).foldl processRun (tot, fa, hp) =
      (tot + (bs.map blockValue).sum, fa || !bs.isEmpty,
        hp || bs.any (fun b => decide (0 < natOfDigits b.digits))) := by
  intro bs
  induction bs with
  | nil => intro _ tot fa hp _; simp
  | cons b bs ih =>
    intro h tot fa hp hbound
    obtain ⟨_, _, _, _, hu2, hm, _⟩ := h b (by simp)
    have hbs' : ∀ b' ∈ bs, WellFormedRun b' := fun b' hb' => h b' (by simp [hb'])
    obtain ⟨m, hm'⟩ := Option.isSome_iff_exists.mp hm
    have hm1 : 1 ≤ m := unitMult_pos hm'
    have hbv : blockValue b = natOfDigits b.digits * m := by
      rw [blockValue, hm']
      rfl
    have hsum : (List.map blockValue (b :: bs)).sum =
        natOfDigits b.digits * m + (bs.map blockValue).sum := by
      rw [List.map_cons, List.sum_cons, hbv]
    have hvm_lt : natOfDigits b.digits * m < u64Size := by
      rw [hsum] at hbound
      omega
    have hv_le : natOfDigits b.digits ≤ u64Max := by
      have hle : natOfDigits b.digits ≤ natOfDigits b.digits * m :=
        Nat.le_mul_of_pos_right _ (by omega)
      unfold u64Max
      unfold u64Size at hvm_lt
      omega
    have hlower : b.unit.map asciiLower = b.unit :=
      map_eq_self_of_fixed (fun c hc => asciiLower_fixed_of_lower (hu2 c hc))
    have hu64 : parseU64Digits b.digits = some (natOfDigits b.digits) := by
      unfold parseU64Digits
      rw [if_pos hv_le]
    have hstep : processRun (tot, fa, hp) (b.digits, b.unit) =
        (tot + natOfDigits b.digits * m, true,
          hp || decide (0 < natOfDigits b.digits)) := by
      simp only [processRun, hu64, hlower, hm']
      rw [Nat.mod_eq_of_lt hvm_lt, Nat.mod_eq_of_lt (by rw [hsum] at hbound; omega)]
    rw [List.map_cons, List.foldl_cons, hstep,
      ih hbs' _ _ _ (by rw [hsum] at hbound; omega), hsum]
    refine congrArg₂ _ (by omega) (congrArg₂ _ (by simp) ?_)
    simp [Bool.or_assoc]

/-! ## Normalization is the identity on well-formed multi-unit inputs -/

theorem mem_getLast?_of_eq {l : List Char} {c : Char} (h : l.getLast? = some c) :
    c ∈ l := by
  obtain ⟨hne, rfl⟩ := List.mem_getLast?_eq_getLast (show c ∈ l.getLast? by rw [h]; rfl)
  exact List.getLast_mem hne

theorem mkInput_ne_nil {b : URun} {bs : List URun} (hd : b.digits ≠ []) :
    mkInput (b :: bs) ≠ [] := by
  simp only [mkInput, runChars, List.append_assoc, ne_eq, List.append_eq_nil]
  intro hc
  exact hd hc.1

theorem mkInput_lower_fixed : ∀ bs : List URun, (∀ b ∈ bs, WellFormedRun b) →
    ∀ c ∈ mkInput bs, asciiLower c = c := by
  intro bs
  induction bs with
  | nil => intro _ c hc; simp [mkInput] at hc
  | cons b bs ih =>
    intro h c hc
    obtain ⟨_, hdall, hg, _, hu2, _, hsep⟩ := h b (by simp)
    simp only [mkInput, runChars, List.append_assoc, List.mem_append] at hc
    rcases hc with hc | hc | hc | hc | hc
    · exact asciiLower_fixed_of_digit (hdall c hc)
    · exact asciiLower_fixed_of_ws (hg c hc)
    · exact asciiLower_fixed_of_lower (hu2 c hc)
    · exact asciiLower_fixed_of_ws (hsep c hc)
    · exact ih (fun b' hb' => h b' (by simp [hb'])) c hc

theorem mkInput_head_not_ws : ∀ bs : List URun, (∀ b ∈ bs, WellFormedRun b) →
    ∀ c, (mkInput bs).head? = some c → isWsChar c = false := by
  intro bs h c hc
  cases bs with
  | nil => simp [mkInput] at hc
  | cons b bs' =>
    obtain ⟨hd, hdall, _, _, _, _, _⟩ := h b (by simp)
    cases hdig : b.digits with
    | nil => exact absurd hdig hd
    | cons d0 dt =>
      simp only [mkInput, runChars, hdig, List.cons_append, List.head?_cons,
        Option.some.injEq] at hc
      subst hc
      exact not_ws_of_digit (hdall d0 (by simp [hdig]))

theorem mkInput_getLast_not_ws : ∀ bs : List URun, (∀ b ∈ bs, WellFormedRun b) →
    (∀ b, bs.getLast? = some b → b.sep = []) →
    ∀ c, (mkInput bs).getLast? = some c → isWsChar c = false := by
  intro bs
  induction bs with
  | nil => intro _ _ c hc; simp [mkInput] at hc
  | cons b bs ih =>
    intro h hlast c hc
    obtain ⟨hd, _, _, hu1, hu2, _, _⟩ := h b (by simp)
    cases bs with
    | nil =>
      have hsep : b.sep = [] := hlast b rfl
      rw [mkInput, mkInput, runChars, hsep, List.append_nil, List.append_nil,
        List.getLast?_append_of_ne_nil _ (by simp [hu1]),
        List.getLast?_append_of_ne_nil _ hu1] at hc
      have h97 := hu2 c (mem_getLast?_of_eq hc)
      exact not_ws_of_alpha ⟨by omega, h97.2⟩
    | cons b' bs' =>
      have hne : mkInput (b' :: bs') ≠ [] :=
        mkInput_ne_nil (h b' (by simp)).1
      rw [mkInput, List.getLast?_append_of_ne_nil _ hne] at hc
      exact ih (fun x hx => h x (by simp [hx]))
        (fun x hx => hlast x (by rw [List.getLast?_cons_cons]; exact hx)) c hc

theorem normalizeChars_mkInput (bs : List URun)
    (h : ∀ b ∈ bs, WellFormedRun b)
    (hlast : ∀ b, bs.getLast? = some b → b.sep = []) :
    normalizeChars (mkInput bs) = mkInput bs := by
  rw [normalizeChars_of_ends (mkInput_head_not_ws bs h)
    (mkInput_getLast_not_ws bs h hlast)]
  exact map_eq_self_of_fixed (mkInput_lower_fixed bs h)

/-! ## Bare-integer parsing fails on strings with a letter -/

theorem parseIsize_none_of_mem {l : List Char} {c : Char} (hc : c ∈ l)
    (h1 : isDigitChar c = false) (h2 : c ≠ '-') (h3 : c ≠ '+') :
    parseIsize l = none := by
  cases l with
  | nil => rfl
  | cons h0 t =>
    by_cases hs : h0 = '-' ∨ h0 = '+'
    · have hct : c ∈ t := by
        rcases List.mem_cons.mp hc with rfl | hct
        · rcases hs with rfl | rfl
          · exact absurd rfl h2
          · exact absurd rfl h3
        · exact hct
      have hall : ¬(t.all isDigitChar = true) := fun hall =>
        absurd (List.all_eq_true.mp hall c hct) (by simp [h1])
      simp only [parseIsize, if_pos hs]
      split_ifs
      all_goals first
      | exact absurd (by assumption : t.all isDigitChar = true) hall
      | rfl
    · have hall : ¬((h0 :: t).all isDigitChar = true) := fun hall =>
        absurd (List.all_eq_true.mp hall c hc) (by simp [h1])
      simp only [parseIsize, if_neg hs]
      split_ifs
      all_goals first
      | exact absurd (by assumption : (h0 :: t).all isDigitChar = true) hall
      | rfl

/-! ## `parse_multiple_units` and the full parser on well-formed inputs -/

theorem parse_multiple_units_mkInput (bs : List URun)
    (h : ∀ b ∈ bs, WellFormedRun b) (hne : bs ≠ [])
    (hbound : (bs.map blockValue).sum < u64Size) :
    parse_multiple_units (mkInput bs) = some ((bs.map blockValue).sum) := by
  unfold parse_multiple_units
  rw [scanRuns_mkInput bs h, foldl_processRun_runs bs h 0 false false (by omega)]
  have hfa : (false || !bs.isEmpty) = true := by
    cases bs with
    | nil => exact absurd rfl hne
    | cons b bs' => simp
  cases hany : bs.any (fun b => decide (0 < natOfDigits b.digits)) with
  | true => simp [hfa, hany]
  | false =>
    have hz : (bs.map blockValue).sum = 0 := by
      apply List.sum_eq_zero
      intro x hx
      obtain ⟨b, hb, rfl⟩ := List.mem_map.mp hx
      have hv0 := List.any_eq_false.mp hany b hb
      simp only [decide_eq_true_eq] at hv0
      have hz0 : natOfDigits b.digits = 0 := by omega
      rw [blockValue, hz0, Nat.zero_mul]
    simp [hfa, hany, hz]

theorem char_ne_of_lower {c : Char} {d : Char} (h97 : 97 ≤ c.toNat ∧ c.toNat ≤ 122)
    (hd : d.toNat < 97) : c ≠ d := by
  intro e
  rw [e] at h97
  omega

theorem parse_sleep_mkInput (bs : List URun)
    (h : ∀ b ∈ bs, WellFormedRun b)
    (hlast : ∀ b, bs.getLast? = some b → b.sep = [])
    (hs : trySingles SINGLE_PATTERNS (mkInput bs) = none)
    (hf : tryFloats FLOAT_PATTERNS (mkInput bs) = none)
    (hbound : (bs.map blockValue).sum < u64Size) :
    parse_sleep_duration_chars (mkInput bs) = .ok ((bs.map blockValue).sum) := by
  cases bs with
  | nil => rfl
  | cons b bs' =>
    have hnorm := normalizeChars_mkInput _ h hlast
    have hne : mkInput (b :: bs') ≠ [] := mkInput_ne_nil (h b (by simp)).1
    obtain ⟨hd, hdall, hg, hu1, hu2, hm, hsep⟩ := h b (by simp)
    cases hu : b.unit with
    | nil => exact absurd hu hu1
    | cons u0 ut =>
      have hu0mem : u0 ∈ mkInput (b :: bs') := by
        simp [mkInput, runChars, hu]
      have h97 := hu2 u0 (by simp [hu])
      have hpi : parseIsize (mkInput (b :: bs')) = none :=
        parseIsize_none_of_mem hu0mem (not_digit_of_alpha ⟨by omega, h97.2⟩)
          (char_ne_of_lower h97 (by decide)) (char_ne_of_lower h97 (by decide))
      unfold parse_sleep_duration_chars
      rw [hnorm, if_neg hne, hpi]
      unfold parse_duration_with_unit
      rw [hs, hf, parse_multiple_units_mkInput _ h (by simp) hbound]

/-! ## Single-unit inputs `"5" ++ whitespace ++ spelling` -/

theorem alpha_of_lower_image {c d : Char}
    (hd : 97 ≤ d.toNat ∧ d.toNat ≤ 122) (h : asciiLower c = d) :
    65 ≤ c.toNat ∧ c.toNat ≤ 122 := by
  unfold asciiLower at h
  split_ifs at h with hc
  · exact ⟨hc.1, by omega⟩
  · rw [h]
    exact ⟨by omega, hd.2⟩

theorem matchIntUnit_shape {sp : List (List Char)} {w u : List Char}
    (hw : ∀ c ∈ w, isWsChar c = true) (hu1 : u ≠ [])
    (hu2 : ∀ c ∈ u, 97 ≤ c.toNat ∧ c.toNat ≤ 122) :
    matchIntUnit true sp ('5' :: (w ++ u)) =
      if u ∈ sp then some ['5'] else none := by
  have hnd := @head_not_digit_of_gap_unit w u [] hw hu1 hu2
  have hnw := @head_not_ws_of_unit u [] hu1 hu2
  rw [List.append_nil] at hnd hnw
  have h5 : isDigitChar '5' = true := by decide
  simp only [matchIntUnit, if_true]
  rw [List.takeWhile_cons_of_pos h5, takeWhile_eq_nil_of_head hnd,
    List.dropWhile_cons_of_pos h5, dropWhile_eq_self_of_head hnd,
    dropWhile_append_of_all hw, dropWhile_eq_self_of_head hnw]
  by_cases hmem : u ∈ sp
  · rw [if_pos ⟨by simp, hmem⟩, if_pos hmem]
  · rw [if_neg (by simp [hmem]), if_neg hmem]

theorem trySingles_shape {w u : List Char} {mult : Nat}
    (hw : ∀ c ∈ w, isWsChar c = true) (hu1 : u ≠ [])
    (hu2 : ∀ c ∈ u, 97 ≤ c.toNat ∧ c.toNat ≤ 122)
    (hlookup : singleLookup u = some mult) :
    trySingles SINGLE_PATTERNS ('5' :: (w ++ u)) = some (5 * mult) := by
  have hms := @matchIntUnit_shape msSpellings w u hw hu1 hu2
  have hs2 := @matchIntUnit_shape sSpellings w u hw hu1 hu2
  have hm2 := @matchIntUnit_shape mSpellings w u hw hu1 hu2
  have hh2 := @matchIntUnit_shape hSpellings w u hw hu1 hu2
  unfold singleLookup at hlookup
  by_cases h1 : u ∈ msSpellings
  · rw [if_pos h1] at hlookup
    injection hlookup with hlookup
    subst hlookup
    rw [if_pos h1] at hms
    simp only [SINGLE_PATTERNS, trySingles, hms]
    rfl
  · rw [if_neg h1] at hlookup
    rw [if_neg h1] at hms
    by_cases h2 : u ∈ sSpellings
    · rw [if_pos h2] at hlookup
      injection hlookup with hlookup
      subst hlookup
      rw [if_pos h2] at hs2
      simp only [SINGLE_PATTERNS, trySingles, hms, hs2]
      rfl
    · rw [if_neg h2] at hlookup
      rw [if_neg h2] at hs2
      by_cases h3 : u ∈ mSpellings
      · rw [if_pos h3] at hlookup
        injection hlookup with hlookup
        subst hlookup
        rw [if_pos h3] at hm2
        simp only [SINGLE_PATTERNS, trySingles, hms, hs2, hm2]
        rfl
      · rw [if_neg h3] at hlookup
        rw [if_neg h3] at hm2
        by_cases h4 : u ∈ hSpellings
        · rw [if_pos h4] at hlookup
          injection hlookup with hlookup
          subst hlookup
          rw [if_pos h4] at hh2
          simp only [SINGLE_PATTERNS, trySingles, hms, hs2, hm2, hh2]
          rfl
        · rw [if_neg h4] at hlookup
          exact Option.noConfusion hlookup

theorem parse_single_unit (w v u : List Char) (mult : Nat)
    (hw : ∀ c ∈ w, isWsChar c = true)
    (hv : v.map asciiLower = u) (hu1 : u ≠ [])
    (hu2 : ∀ c ∈ u, 97 ≤ c.toNat ∧ c.toNat ≤ 122)
    (hlookup : singleLookup u = some mult) :
    parse_sleep_duration_chars ('5' :: (w ++ v)) = .ok (5 * mult) := by
  have hvchars : ∀ c ∈ v, 65 ≤ c.toNat ∧ c.toNat ≤ 122 := by
    intro c hc
    refine alpha_of_lower_image ?_ rfl
    have : asciiLower c ∈ u := by
      rw [← hv]
      exact List.mem_map_of_mem asciiLower hc
    exact hu2 _ this
  have hv1 : v ≠ [] := by
    intro e
    rw [e] at hv
    exact hu1 hv.symm
  have hnorm : normalizeChars ('5' :: (w ++ v)) = '5' :: (w ++ u) := by
    rw [normalizeChars_of_ends ?hh ?hl]
    case hh =>
      intro c hc
      simp only [List.head?_cons, Option.some.injEq] at hc
      subst hc
      decide
    case hl =>
      intro c hc
      rw [show ('5' :: (w ++ v)) = ('5' :: w) ++ v from by simp,
        List.getLast?_append_of_ne_nil _ hv1] at hc
      exact not_ws_of_alpha (hvchars c (mem_getLast?_of_eq hc))
    rw [List.map_cons, List.map_append, hv,
      map_eq_self_of_fixed (fun c hc => asciiLower_fixed_of_ws (hw c hc))]
    rfl
  unfold parse_sleep_duration_chars
  rw [hnorm, if_neg (by simp)]
  obtain ⟨u0, ut, hu'⟩ := List.exists_cons_of_ne_nil hu1
  have h97 : 97 ≤ u0.toNat ∧ u0.toNat ≤ 122 := hu2 u0 (by rw [hu']; simp)
  have hpi : parseIsize ('5' :: (w ++ u)) = none :=
    parseIsize_none_of_mem (c := u0) (by rw [hu']; simp)
      (not_digit_of_alpha ⟨by omega, h97.2⟩)
      (char_ne_of_lower h97 (by decide)) (char_ne_of_lower h97 (by decide))
  rw [hpi]
  unfold parse_duration_with_unit
  rw [trySingles_shape hw hu1 hu2 hlookup]

/-! # The claims -/

/-- Claim C1: the claim states that `parse_sleep_duration "1.5ms"` returns an
`InvalidDuration` error because a fractional millisecond suffix matches no
rule, including the multi-unit scan.  The code disagrees: the unanchored
multi-unit regex matches the substring `"5ms"` inside the fractional
literal, so the parser returns `Ok` with 5 milliseconds and never errors on
this input.  This theorem evaluates the embedded parser at that input. -/
theorem c1_fractional_ms_evaluation :
    parse_sleep_duration "1.5ms" = .ok 5 ∧
    ∀ e, parse_sleep_duration "1.5ms" ≠ .error e := by
  refine ⟨rfl, ?_⟩
  intro e h
  rw [show parse_sleep_duration "1.5ms" = .ok 5 from rfl] at h
  exact Except.noConfusion h

/-- Claim C2: on every input that matches a single-unit fractional rule, the
single-unit rules are applied before the multi-unit scan (the result is the
single-pattern result when one matches, else the fractional-pattern result,
and the multi-unit scan is never consulted); `"1.5s"` gives 1500 ms and
`"0.5m"` gives 30000 ms, computed by the fractional rule (which yields 1500
on `"1.5s"`) and not by the multi-unit grouping of the integer substring
(which would yield 5000). -/
theorem c2_fractional_rule_precedence :
    (∀ input : List Char, tryFloats FLOAT_PATTERNS input ≠ none →
      parse_duration_with_unit input =
        match trySingles SINGLE_PATTERNS input with
        | some d => some d
        | none => tryFloats FLOAT_PATTERNS input) ∧
    parse_sleep_duration "1.5s" = .ok 1500 ∧
    parse_sleep_duration "0.5m" = .ok 30000 ∧
    tryFloats FLOAT_PATTERNS "1.5s".data = some 1500 ∧
    parse_multiple_units "1.5s".data = some 5000 := by
  refine ⟨?_, rfl, rfl, rfl, rfl⟩
  intro input h
  unfold parse_duration_with_unit
  cases hs : trySingles SINGLE_PATTERNS input with
  | some d => rfl
  | none =>
    cases hf : tryFloats FLOAT_PATTERNS input with
    | some d => rfl
    | none => exact absurd hf h

/-- Witness for C2 at the concrete input `"1.5s"`. -/
theorem c2_witness :
    parse_duration_with_unit "1.5s".data =
      (match trySingles SINGLE_PATTERNS "1.5s".data with
        | some d => some d
        | none => tryFloats FLOAT_PATTERNS "1.5s".data) :=
  c2_fractional_rule_precedence.1 "1.5s".data (by decide)

/-- Claim C3 counterexample: the claim promises the exact sum of
`value × factor` for every string of digit-unit runs, but the `u64`
accumulation wraps: on `"9999999999999999999h1s"` (one run above
`isize::MAX`, so no single-unit rule applies) the parser returns the sum
modulo `2 ^ 64`, which differs from the exact sum
35999999999999999996401000. -/
theorem c3_counterexample :
    parseIsize (normalizeChars "9999999999999999999h1s".data) = none ∧
    trySingles SINGLE_PATTERNS (normalizeChars "9999999999999999999h1s".data) = none ∧
    tryFloats FLOAT_PATTERNS (normalizeChars "9999999999999999999h1s".data) = none ∧
    scanRuns (normalizeChars "9999999999999999999h1s".data) =
      [("9999999999999999999".data, "h".data), ("1".data, "s".data)] ∧
    parse_sleep_duration "9999999999999999999h1s" =
      .ok ((9999999999999999999 * 3600000 + 1000) % u64Size) ∧
    (9999999999999999999 * 3600000 + 1000) % u64Size ≠
      9999999999999999999 * 3600000 + 1000 := by
  exact ⟨rfl, rfl, rfl, rfl, rfl, by decide⟩

/-- Claim C3 (amended): for every input composed of repeated
`<digits><unit>` runs — whitespace permitted between digits and unit and
between runs — with recognized lowercase unit spellings, on which no
single-unit rule matches, the parser returns the sum of `value × factor`
over the runs, provided that sum is below `2 ^ 64` (the `u64` accumulator
wraps above that, as the counterexample shows); in particular `"1h2m3s"`
and `"1h 2m 3s"` give 3723000 ms, `"2s500ms"` gives 2500 ms, and the
all-zero `"0h0m0s"` gives the zero duration. -/
theorem c3_multi_unit_sum_amended :
    (∀ bs : List URun, (∀ b ∈ bs, WellFormedRun b) →
      (∀ b, bs.getLast? = some b → b.sep = []) →
      trySingles SINGLE_PATTERNS (mkInput bs) = none →
      tryFloats FLOAT_PATTERNS (mkInput bs) = none →
      (bs.map blockValue).sum < u64Size →
      parse_sleep_duration (String.mk (mkInput bs)) =
        .ok ((bs.map blockValue).sum)) ∧
    parse_sleep_duration "1h2m3s" = .ok 3723000 ∧
    parse_sleep_duration "1h 2m 3s" = .ok 3723000 ∧
    parse_sleep_duration "2s500ms" = .ok 2500 ∧
    parse_sleep_duration "0h0m0s" = .ok 0 := by
  refine ⟨?_, rfl, rfl, rfl, rfl⟩
  intro bs h hlast hs hf hbound
  exact parse_sleep_mkInput bs h hlast hs hf hbound

/-- Witness for C3 at the two-run input `"2s500ms"`. -/
theorem c3_witness :
    parse_sleep_duration (String.mk (mkInput
      [URun.mk "2".data [] "s".data [], URun.mk "500".data [] "ms".data []])) =
      .ok (([URun.mk "2".data [] "s".data [],
        URun.mk "500".data [] "ms".data []].map blockValue).sum) := by
  refine c3_multi_unit_sum_amended.1 _ (by decide) ?_ (by decide) (by decide)
    (by decide)
  intro b hb
  have hkey : b = URun.mk "500".data [] "ms".data [] :=
    Option.some.inj (Eq.trans hb.symm rfl)
  rw [hkey]

/-- Claim C4: the parser fails exactly when the normalized input is nonempty,
is not a bare `isize`, and matches none of the unit grammars; every error it
produces is the single kind `InvalidDuration` carrying the post-normalization
input string (the source wraps that string in its fixed diagnostic template),
and the `ParseError` and `NumberOutOfRange` kinds are never produced. -/
theorem c4_error_taxonomy : ∀ s : String,
    (∀ e, parse_sleep_duration s = .error e →
      e = SleepError.InvalidDuration (String.mk (normalizeChars s.data))) ∧
    (isErr (parse_sleep_duration s) = true ↔
      (normalizeChars s.data ≠ [] ∧ parseIsize (normalizeChars s.data) = none ∧
        parse_duration_with_unit (normalizeChars s.data) = none)) ∧
    (∀ msg, parse_sleep_duration s ≠ .error (.ParseError msg) ∧
      parse_sleep_duration s ≠ .error (.NumberOutOfRange msg)) := by
  intro s
  have hunf : parse_sleep_duration s =
      (if normalizeChars s.data = [] then .ok 0 else
        match parseIsize (normalizeChars s.data) with
        | some millis => if millis ≤ 0 then .ok 0 else .ok millis.toNat
        | none =>
          match parse_duration_with_unit (normalizeChars s.data) with
          | some duration => .ok duration
          | none =>
            .error (.InvalidDuration (String.mk (normalizeChars s.data)))) := rfl
  by_cases hN : normalizeChars s.data = []
  · have hres : parse_sleep_duration s = .ok 0 := by rw [hunf, if_pos hN]
    rw [hres]
    exact ⟨fun e he => Except.noConfusion he, by simp [isErr, hN],
      fun msg => ⟨fun h => Except.noConfusion h, fun h => Except.noConfusion h⟩⟩
  · cases hi : parseIsize (normalizeChars s.data) with
    | some v =>
      have hres : parse_sleep_duration s =
          if v ≤ 0 then .ok 0 else .ok v.toNat := by
        rw [hunf, if_neg hN, hi]
      obtain ⟨d, hd⟩ : ∃ d, parse_sleep_duration s = .ok d := by
        rw [hres]
        split
        · exact ⟨0, rfl⟩
        · exact ⟨v.toNat, rfl⟩
      rw [hd]
      exact ⟨fun e he => Except.noConfusion he, by simp [isErr, hi],
        fun msg => ⟨fun h => Except.noConfusion h, fun h => Except.noConfusion h⟩⟩
    | none =>
      cases hw : parse_duration_with_unit (normalizeChars s.data) with
      | some d =>
        have hres : parse_sleep_duration s = .ok d := by
          rw [hunf, if_neg hN, hi, hw]
        rw [hres]
        exact ⟨fun e he => Except.noConfusion he, by simp [isErr, hw],
          fun msg => ⟨fun h => Except.noConfusion h, fun h => Except.noConfusion h⟩⟩
      | none =>
        have hres : parse_sleep_duration s =
            .error (.InvalidDuration (String.mk (normalizeChars s.data))) := by
          rw [hunf, if_neg hN, hi, hw]
        rw [hres]
        refine ⟨?_, by simp [isErr, hN, hi, hw], ?_⟩
        · intro e he
          injection he with he
          exact he.symm
        · intro msg
          constructor
          · intro h
            injection h with h
            exact SleepError.noConfusion h
          · intro h
            injection h with h
            exact SleepError.noConfusion h

/-- Witness for C4 at the concrete input `"abc"`: the produced error carries
the post-normalization string. -/
theorem c4_witness :
    SleepError.InvalidDuration "abc" =
      SleepError.InvalidDuration (String.mk (normalizeChars "abc".data)) :=
  (c4_error_taxonomy "abc").1 (SleepError.InvalidDuration "abc") rfl

/-- Claim C5: `SleepInput::should_sleep` returns `false` exactly for a
`Number` that is at most zero, a `Text` that parses cleanly as a signed
64-bit integer at most zero, and a `Duration` that is exactly zero; a
`Text` that is not a clean integer, such as `"0s"`, returns `true` and is
left for the parser. -/
theorem c5_should_sleep_characterization :
    (∀ inp : SleepInput, inp.should_sleep = false ↔
      ((∃ n, inp = .Number n ∧ n ≤ 0) ∨
       (∃ t n, inp = .Text t ∧ parseIsize t.data = some n ∧ n ≤ 0) ∨
       inp = .Duration 0)) ∧
    SleepInput.should_sleep (.Text "0s") = true := by
  refine ⟨?_, rfl⟩
  intro inp
  cases inp with
  | Number n =>
    simp only [SleepInput.should_sleep, decide_eq_false_iff_not, not_lt]
    constructor
    · intro h
      exact Or.inl ⟨n, rfl, h⟩
    · rintro (⟨m, hm, hle⟩ | ⟨t, m, ht, _, _⟩ | hd)
      · injection hm with hm
        omega
      · exact SleepInput.noConfusion ht
      · exact SleepInput.noConfusion hd
  | Text t =>
    cases hp : parseIsize t.data with
    | none =>
      simp only [SleepInput.should_sleep, hp]
      constructor
      · intro h
        exact Bool.noConfusion h
      · rintro (⟨m, hm, _⟩ | ⟨t', m, ht, hpm, _⟩ | hd)
        · exact SleepInput.noConfusion hm
        · injection ht with ht
          subst ht
          rw [hp] at hpm
          exact Option.noConfusion hpm
        · exact SleepInput.noConfusion hd
    | some m =>
      simp only [SleepInput.should_sleep, hp, decide_eq_false_iff_not, not_lt]
      constructor
      · intro h
        exact Or.inr (Or.inl ⟨t, m, rfl, hp, h⟩)
      · rintro (⟨m', hm, _⟩ | ⟨t', m', ht, hpm, hle⟩ | hd)
        · exact SleepInput.noConfusion hm
        · injection ht with ht
          subst ht
          rw [hp] at hpm
          injection hpm with hpm
          omega
        · exact SleepInput.noConfusion hd
  | Duration d =>
    simp only [SleepInput.should_sleep, Bool.not_eq_false']
    constructor
    · intro h
      exact Or.inr (Or.inr (by simp only [decide_eq_true_eq] at h; rw [h]))
    · rintro (⟨m, hm, _⟩ | ⟨t', m, ht, _, _⟩ | hd)
      · exact SleepInput.noConfusion hm
      · exact SleepInput.noConfusion ht
      · injection hd with hd
        subst hd
        decide

/-- Claim C6: for every string whose trimmed, lowercased form parses as a
signed 64-bit integer `n`, the parser returns a duration of `n` milliseconds
when `n` is positive and the zero duration when `n ≤ 0`, never an error. -/
theorem c6_bare_integer (s : String) (n : Int)
    (h : parseIsize (normalizeChars s.data) = some n) :
    (0 < n → parse_sleep_duration s = .ok n.toNat) ∧
    (n ≤ 0 → parse_sleep_duration s = .ok 0) := by
  have hne : normalizeChars s.data ≠ [] := by
    intro he
    rw [he] at h
    exact Option.noConfusion h
  have hres : parse_sleep_duration s =
      if n ≤ 0 then .ok 0 else .ok n.toNat := by
    have hunf : parse_sleep_duration s =
        (if normalizeChars s.data = [] then .ok 0 else
          match parseIsize (normalizeChars s.data) with
          | some millis => if millis ≤ 0 then .ok 0 else .ok millis.toNat
          | none =>
            match parse_duration_with_unit (normalizeChars s.data) with
            | some duration => .ok duration
            | none =>
              .error (.InvalidDuration (String.mk (normalizeChars s.data)))) := rfl
    rw [hunf, if_neg hne, h]
  constructor
  · intro hpos
    rw [hres, if_neg (by omega)]
  · intro hle
    rw [hres, if_pos hle]

/-- Witness for C6 at the concrete inputs `"42"` and `" -7 "`. -/
theorem c6_witness :
    parse_sleep_duration "42" = .ok 42 ∧ parse_sleep_duration " -7 " = .ok 0 :=
  ⟨(c6_bare_integer "42" 42 (by decide)).1 (by decide),
   (c6_bare_integer " -7 " (-7) (by decide)).2 (by decide)⟩

/-- Claim C7: for every spelling of the unit factor table, every upper,
lower, or mixed case variant of it, and any whitespace between the value
and the unit, parsing `"5"` followed by that variant yields exactly
`5 × factor` milliseconds. -/
theorem c7_unit_round_trip : ∀ p ∈ spellingTable, ∀ w v : List Char,
    (∀ c ∈ w, isWsChar c = true) → v.map asciiLower = p.1 →
    parse_sleep_duration (String.mk ('5' :: (w ++ v))) = .ok (5 * p.2) := by
  intro p hp w v hw hv
  have hchars : parse_sleep_duration (String.mk ('5' :: (w ++ v))) =
      parse_sleep_duration_chars ('5' :: (w ++ v)) := rfl
  rw [hchars]
  fin_cases hp <;>
    exact parse_single_unit w v _ _ hw hv (by decide) (by decide) (by decide)

/-- Witness for C7: the mixed-case hour spelling `"HOUR"` after a space. -/
theorem c7_witness :
    parse_sleep_duration (String.mk ('5' :: ([' '] ++ "HOUR".data))) =
      .ok (5 * 3600000) :=
  c7_unit_round_trip ("hour".data, 3600000) (by decide) [' '] "HOUR".data
    (by decide) (by decide)

/-- Claim C8: the empty string and strings of only whitespace parse to the
zero duration, not an error. -/
theorem c8_empty_and_whitespace : ∀ s : String,
    (∀ c ∈ s.data, isWsChar c = true) → parse_sleep_duration s = .ok 0 := by
  intro s h
  have hunf : parse_sleep_duration s =
      (if normalizeChars s.data = [] then .ok 0 else
        match parseIsize (normalizeChars s.data) with
        | some millis => if millis ≤ 0 then .ok 0 else .ok millis.toNat
        | none =>
          match parse_duration_with_unit (normalizeChars s.data) with
          | some duration => .ok duration
          | none =>
            .error (.InvalidDuration (String.mk (normalizeChars s.data)))) := rfl
  rw [hunf, if_pos (normalizeChars_eq_nil_of_all h)]

/-- Witness for C8 at the empty and all-whitespace inputs. -/
theorem c8_witness :
    parse_sleep_duration "" = .ok 0 ∧ parse_sleep_duration "   " = .ok 0 :=
  ⟨c8_empty_and_whitespace "" (by decide),
   c8_empty_and_whitespace "   " (by decide)⟩

/-- Claim C9: during the multi-unit scan a run whose letters are not a
recognized unit spelling is silently skipped — the loop state is unchanged,
so it neither errors nor contributes to the sum — and in particular
`"1x2m"` parses to 2 minutes (120000 ms) instead of failing. -/
theorem c9_unknown_unit_skipped :
    (∀ (st : Nat × Bool × Bool) (d u : List Char),
      unitMult (u.map asciiLower) = none → processRun st (d, u) = st) ∧
    parse_sleep_duration "1x2m" = .ok 120000 := by
  refine ⟨?_, rfl⟩
  intro st d u h
  cases hp : parseU64Digits d with
  | none => simp [processRun, hp]
  | some v => simp [processRun, hp, h]

/-- Witness for C9: the unknown spelling `"x"` leaves the state untouched. -/
theorem c9_witness :
    processRun (0, false, false) ("1".data, "x".data) = (0, false, false) :=
  c9_unknown_unit_skipped.1 (0, false, false) "1".data "x".data (by decide)

/-- Claim C10: the claim states the parser is total and panic-free with the
`u64` products and the running sum never exceeding the `u64` range.  The
code disagrees: `"9999999999999999999h"` (too large for `isize`, accepted
by `u64`) reaches the multi-unit scan, where the unchecked product
`9999999999999999999 × 3600000 = 35999999999999999996400000` exceeds
`u64::MAX` — a debug-build panic, wrap-around in release builds.  This
theorem traces the embedded parser through that input: no single-unit rule
consumes it, the scan yields exactly this run, the product overflows, and
the wrapping model returns the reduced value. -/
theorem c10_overflow_evaluation :
    parseIsize (normalizeChars "9999999999999999999h".data) = none ∧
    trySingles SINGLE_PATTERNS (normalizeChars "9999999999999999999h".data) = none ∧
    tryFloats FLOAT_PATTERNS (normalizeChars "9999999999999999999h".data) = none ∧
    scanRuns (normalizeChars "9999999999999999999h".data) =
      [("9999999999999999999".data, "h".data)] ∧
    parseU64Digits "9999999999999999999".data = some 9999999999999999999 ∧
    unitMult "h".data = some 3600000 ∧
    u64Max < 9999999999999999999 * 3600000 ∧
    parse_sleep_duration "9999999999999999999h" =
      .ok ((9999999999999999999 * 3600000) % u64Size) ∧
    (9999999999999999999 * 3600000) % u64Size ≠ 9999999999999999999 * 3600000 :=
  ⟨rfl, rfl, rfl, rfl, rfl, rfl, by decide, rfl, by decide⟩
